import Mathlib

/-!
TyPM call-graph analyzer: the fixpoint driver and the type signature engine.

A shallow embedding of `src/lib/Analyzer.cc` (option handling of `main`, the
analysis loop of `IterativeModulePass::run`) and of `src/lib/Common.cc`
(`LoadElementsStructNameMap`, `cleanString`, `structTyStr`, `typeHash`,
`hashIdxHash`, `typeIdxHash`, `getGEPOffset`).  The pass that `main` runs,
`CallGraphPass::doModulePass`, lives in CallGraph.cc, which is not available; its
change reporting is modelled from the specification.
-/

namespace Typm

/-! ## Analyzer.cc : command-line options and `main` -/

/-- Value of `cl::opt<int> MLTA` (`cl::init(0)`): the value given on the command
line, or the initial value when the option is absent. -/
def MLTA (given : Option Int) : Int := given.getD 0

/-- Value of `cl::opt<int> TyPM` (`cl::init(1)`). -/
def TyPM (given : Option Int) : Int := given.getD 1

/-- Value of `cl::opt<int> PHASE` (`cl::init(2)`). -/
def PHASE (given : Option Int) : Int := given.getD 2

/-- The three globals that `main` assigns before running the call-graph pass. -/
structure Config where
  ENABLE_MLTA : Int
  ENABLE_TYDM : Int
  MAX_PHASE_CG : Int
  deriving DecidableEq, Repr

/-- Lines 229-233 of `main`: copy the options into the globals, then force the
phase cap to one when `ENABLE_TYDM` is zero.  Each argument is `none` when the
option is not on the command line. -/
def mainConfig (mlta typm phase : Option Int) : Config :=
  let ENABLE_MLTA := MLTA mlta
  let ENABLE_TYDM := TyPM typm
  let MAX_PHASE_CG := PHASE phase
  let MAX_PHASE_CG := if ENABLE_TYDM = 0 then 1 else MAX_PHASE_CG
  { ENABLE_MLTA := ENABLE_MLTA, ENABLE_TYDM := ENABLE_TYDM, MAX_PHASE_CG := MAX_PHASE_CG }

/-! ## Analyzer.cc : the analysis loop of `IterativeModulePass::run` -/

/-- Number of values of the C++ type `unsigned` (32 bits). -/
def UNSIGNED_RANGE : Nat := 2 ^ 32

/-- One progress record written to `OP` by the inner loop: the phase number,
the running module counter, the module total, the module handed to
`doModulePass`, and whether `[CHANGED]` was printed. -/
structure Progress (M : Type) where
  iter : Nat
  counter_modules : Nat
  total_modules : Nat
  module : M
  changed : Bool
  deriving DecidableEq, Repr

/-- Variables live inside one sweep (the inner `for` loop). -/
structure SweepState (σ M : Type) where
  pass : σ
  changed : Nat
  counter_modules : Nat
  out : List (Progress M)

/-- Variables live across sweeps (the outer `while` loop). -/
structure LoopState (σ M : Type) where
  pass : σ
  iter : Nat
  changed : Nat
  out : List (Progress M)

/-- Body of the inner `for` loop (lines 103-114): one call of the virtual
`doModulePass`, `++changed` when it returned true.  `σ` is everything the pass
may read or write (the pass object and the global context). -/
def forBody {σ M : Type} (doModulePass : σ → M → σ × Bool) (iter total_modules : Nat)
    (st : SweepState σ M) (m : M) : SweepState σ M :=
  let counter_modules := (st.counter_modules + 1) % UNSIGNED_RANGE
  let r := doModulePass st.pass m
  { pass := r.1
    changed := if r.2 then (st.changed + 1) % UNSIGNED_RANGE else st.changed
    counter_modules := counter_modules
    out := st.out ++ [{ iter := iter, counter_modules := counter_modules,
                        total_modules := total_modules, module := m, changed := r.2 }] }

/-- The inner `for` loop over the module list, front to back. -/
def forModules {σ M : Type} (doModulePass : σ → M → σ × Bool) (iter total_modules : Nat) :
    List M → SweepState σ M → SweepState σ M
  | [], st => st
  | m :: rest, st => forModules doModulePass iter total_modules rest
      (forBody doModulePass iter total_modules st m)

/-- Body of the outer `while (changed)` loop (lines 97-116): one sweep. -/
def whileBody {σ M : Type} (doModulePass : σ → M → σ × Bool) (modules : List M)
    (st : LoopState σ M) : LoopState σ M :=
  let iter := (st.iter + 1) % UNSIGNED_RANGE
  let total_modules := modules.length % UNSIGNED_RANGE
  let sw := forModules doModulePass iter total_modules modules
    { pass := st.pass, changed := 0, counter_modules := 0, out := st.out }
  { pass := sw.pass, iter := iter, changed := sw.changed, out := sw.out }

/-- State at line 94: `iter = 0, changed = 1`. -/
def loopInit {σ M : Type} (s0 : σ) : LoopState σ M :=
  { pass := s0, iter := 0, changed := 1, out := [] }

/-- The loop `while (changed) { ... }` started from `st`.  The fuel bounds the
number of times the body is entered: the result is `some` exactly when the loop
condition becomes false after at most `fuel` sweeps. -/
def whileChanged {σ M : Type} (doModulePass : σ → M → σ × Bool) (modules : List M) :
    Nat → LoopState σ M → Option (LoopState σ M)
  | fuel, st =>
    if st.changed = 0 then some st
    else match fuel with
      | 0 => none
      | n + 1 => whileChanged doModulePass modules n (whileBody doModulePass modules st)

/-- The analysis loop of `IterativeModulePass::run` (lines 94-117). -/
def analysisLoop {σ M : Type} (doModulePass : σ → M → σ × Bool) (modules : List M)
    (fuel : Nat) (s0 : σ) : Option (LoopState σ M) :=
  whileChanged doModulePass modules fuel (loopInit s0)

/-! ### Reference notions used to state the properties of the loop -/

/-- The calls one sweep makes when started in pass state `s`: each module of the
list once, in order, with the value `doModulePass` returns there. -/
def sweepCalls {σ M : Type} (doModulePass : σ → M → σ × Bool) : List M → σ → List (M × Bool)
  | [], _ => []
  | m :: rest, s => (m, (doModulePass s m).2) :: sweepCalls doModulePass rest (doModulePass s m).1

/-- Pass state after one sweep started in `s`. -/
def sweepPass {σ M : Type} (doModulePass : σ → M → σ × Bool) : List M → σ → σ
  | [], s => s
  | m :: rest, s => sweepPass doModulePass rest (doModulePass s m).1

/-- Pass state at the start of phase `j + 1`, that is after `j` full sweeps. -/
def phaseStart {σ M : Type} (doModulePass : σ → M → σ × Bool) (modules : List M) (s0 : σ) :
    Nat → σ
  | 0 => s0
  | j + 1 => sweepPass doModulePass modules (phaseStart doModulePass modules s0 j)

/-- Whether `doModulePass` returns true for at least one module during phase `j + 1`. -/
def phaseChanged {σ M : Type} (doModulePass : σ → M → σ × Bool) (modules : List M) (s0 : σ)
    (j : Nat) : Bool :=
  (sweepCalls doModulePass modules (phaseStart doModulePass modules s0 j)).any (fun c => c.2)

/-- The loop stops after at most `cap` sweeps. -/
def StopsWithinCap {σ M : Type} (doModulePass : σ → M → σ × Bool) (modules : List M) (s0 : σ)
    (cap : Int) : Prop :=
  ∃ n : Nat, (n : Int) ≤ cap ∧ (analysisLoop doModulePass modules n s0).isSome = true

/-- The loop runs exactly `k` sweeps: it has stopped after `k` sweeps and not before. -/
def RunsExactly {σ M : Type} (doModulePass : σ → M → σ × Bool) (modules : List M) (s0 : σ)
    (k : Nat) : Prop :=
  (analysisLoop doModulePass modules k s0).isSome = true ∧
    ∀ n, n < k → analysisLoop doModulePass modules n s0 = none

/-- A sample `doModulePass` for examples: the pass state counts the calls, and
only the very first call reports a change. -/
def changesOnce (s : Nat) (_m : Nat) : Nat × Bool := (s + 1, s == 0)

/-- A sample `doModulePass` for examples: every call reports a change. -/
def alwaysChanges (s : Unit) (_m : Nat) : Unit × Bool := (s, true)

/-! ## CallGraph.cc : the pass that `main` runs -/

/-- What the call-graph pass carries from call to call, as far as the phase
protocol goes: the builder's own state (its view of the global analysis state)
and the number of `doModulePass` calls made so far. -/
structure CallGraphState (σ : Type) where
  builder : σ
  calls : Nat

/-- Modelled from the spec: `CallGraphPass::doModulePass`, the pass `main` hands
to `run`; its file CallGraph.cc is missing.  The spec has the analysis repeat
"until a phase reports zero changes, or until a configured maximum phase count
is reached", and `run` has no cap test of its own, so it is the builder that
stops reporting.  It reports a change for a module exactly when its matching
step found one (`analyze`, any function of the builder state and the module)
and the number of the current phase is still below `MAX_PHASE_CG`.  The phase
number is counted from the calls made so far and the number of modules in the
global context. -/
def callGraphDoModulePass {σ M : Type} (cfg : Config) (numModules : Nat)
    (analyze : σ → M → σ × Bool) (s : CallGraphState σ) (m : M) : CallGraphState σ × Bool :=
  let phase := s.calls / numModules + 1
  let r := analyze s.builder m
  ({ builder := r.1, calls := s.calls + 1 }, r.2 && decide ((phase : Int) < cfg.MAX_PHASE_CG))

/-- A sample matching step for examples: it finds something new in every module. -/
def alwaysFinds (b : Unit) (_m : Nat) : Unit × Bool := (b, true)

/-! ## Common.cc : strings, the struct-name table and the type hashes -/

/-- Number of values of `size_t` (64 bits). -/
def SIZE_RANGE : Nat := 2 ^ 64

/-- The call `str_hash(s)` of a `std::hash<string>` object.  The hash function is
implementation-defined, so it is a parameter `h`; its result is a `size_t`. -/
def str_hash (h : String → Nat) (s : String) : Nat := h s % SIZE_RANGE

/-- A concrete string hash (multiply by 31 and add, in 64 bits), used only to
evaluate examples where a definite `std::hash<string>` is needed. -/
def sampleStrHash (s : String) : Nat :=
  s.toList.foldl (fun acc c => (acc * 31 + c.toNat) % SIZE_RANGE) 7

/-- An `llvm::StructType` as Common.cc reads it: `hasName()`/`getName()`,
`isOpaque()`, the `getTypeID()` of every element in order, and the text that
`Type::print` writes for it. -/
structure StructType where
  name : Option String
  isOpaque : Bool
  elements : List Nat
  printed : String
  deriving DecidableEq, Repr

/-- An `llvm::Type`: a struct type, or any other type with its printed text. -/
inductive IRType where
  | struct (STy : StructType)
  | other (printed : String)
  deriving DecidableEq, Repr

/-- An element of `Module::getIdentifiedStructTypes()`.  LLVM collects only the
struct types that have a name there, so `assert(STy->hasName())` on line 418
holds for each of them and the name is a plain string. -/
structure IdentifiedStruct where
  name : String
  isOpaque : Bool
  elements : List Nat
  printed : String
  deriving DecidableEq, Repr

/-- The same struct seen as the `StructType` that `typeHash` receives. -/
def IdentifiedStruct.toStructType (S : IdentifiedStruct) : StructType :=
  { name := some S.name, isOpaque := S.isOpaque, elements := S.elements, printed := S.printed }

/-- A module, reduced to its identified struct types in enumeration order. -/
structure Module where
  identifiedStructTypes : List IdentifiedStruct
  deriving DecidableEq, Repr

/-- Function `structTyStr` (lines 524-533): the decimal type IDs of the elements,
concatenated without a separator. -/
def structTyStr (elements : List Nat) : String :=
  elements.foldl (fun ty_str id => ty_str ++ toString id) ""

/-- Byte-wise comparison underlying `StringRef::compare`: the first differing
character decides, and a proper prefix is smaller. -/
def strLt : List Char → List Char → Bool
  | [], [] => false
  | [], _ :: _ => true
  | _ :: _, [] => false
  | a :: as, b :: bs => if a < b then true else if b < a then false else strLt as bs

/-- The order `operator<` on `StringRef`, by which a `std::set<StringRef>` is sorted. -/
def stringRefLess (x y : String) : Bool := strLt x.toList y.toList

/-- Insertion into a `std::set<StringRef>`, kept as a strictly increasing list. -/
def setInsert (x : String) : List String → List String
  | [] => [x]
  | y :: ys =>
    if stringRefLess x y then x :: y :: ys
    else if x = y then y :: ys
    else y :: setInsert x ys

/-- The static `elementsStructNameMap` (line 12), a
`map<string, set<StringRef>>`, as an association list with one entry per key.
The code only ever looks keys up, so the order of the entries is immaterial. -/
abbrev NameMap := List (String × List String)

/-- Lookup `elementsStructNameMap.find(key)`: `none` stands for `end()`. -/
def mapFind (tbl : NameMap) (key : String) : Option (List String) :=
  match tbl with
  | [] => none
  | (k, names) :: rest => if k = key then some names else mapFind rest key

/-- The statement `elementsStructNameMap[key].insert(name)`. -/
def mapInsert (tbl : NameMap) (key name : String) : NameMap :=
  match tbl with
  | [] => [(key, setInsert name [])]
  | (k, names) :: rest =>
    if k = key then (k, setInsert name names) :: rest else (k, names) :: mapInsert rest key name

/-- Inner loop of `LoadElementsStructNameMap` over the struct types of one module. -/
def loadStructs (tbl : NameMap) : List IdentifiedStruct → NameMap
  | [] => tbl
  | STy :: rest =>
    if STy.isOpaque then loadStructs tbl rest
    else loadStructs (mapInsert tbl (structTyStr STy.elements) STy.name) rest

/-- Function `LoadElementsStructNameMap` (lines 410-426), acting on the table
`tbl` it finds. -/
def LoadElementsStructNameMap (tbl : NameMap) : List Module → NameMap
  | [] => tbl
  | M :: rest => LoadElementsStructNameMap (loadStructs tbl M.identifiedStructTypes) rest

/-- The idiom `remove(str.begin(), str.end(), ' ')` followed by `erase`. -/
def removeSpaces (str : List Char) : List Char := str.filter (fun c => c != ' ')

/-- The string `ty_str` that `typeHash` (lines 562-609, built without
`SOUND_MODE`) hands to `str_hash`. -/
def typeHashStr (tbl : NameMap) : IRType → String
  | .struct STy =>
    match STy.name with
    | some name => name
    | none =>
      match mapFind tbl (structTyStr STy.elements) with
      | some names => names.headD ""
      | none => ""
  | .other printed => String.mk (removeSpaces printed.toList)

/-- Function `typeHash`. -/
def typeHash (h : String → Nat) (tbl : NameMap) (Ty : IRType) : Nat :=
  str_hash h (typeHashStr tbl Ty)

/-- Function `hashIdxHash` (lines 611-615); the sum is taken in `size_t`. -/
def hashIdxHash (h : String → Nat) (Hs : Nat) (Idx : Int) : Nat :=
  (Hs + str_hash h (toString Idx)) % SIZE_RANGE

/-- Function `typeIdxHash` (lines 617-620). -/
def typeIdxHash (h : String → Nat) (tbl : NameMap) (Ty : IRType) (Idx : Int) : Nat :=
  hashIdxHash h (typeHash h tbl Ty) Idx

/-- The set stored in the table under `key`, empty when the key is absent. -/
def namesAt (tbl : NameMap) (key : String) : List String := (mapFind tbl key).getD []

/-- All names registered for a shape key by the modules, in registration order
(module-list order, then struct-enumeration order). -/
def registeredNames (Modules : List Module) (key : String) : List String :=
  (Modules.flatMap (fun M => M.identifiedStructTypes)).filterMap
    (fun STy => if !STy.isOpaque && structTyStr STy.elements == key then some STy.name else none)


/-! ## Common.cc : `cleanString` -/

/-- The search text `"(%class."` of line 432, as a character sequence. -/
def classPrefix : List Char := ['(', '%', 'c', 'l', 'a', 's', 's', '.']

/-- The call `str.find(pat)`: position of the first occurrence of `pat`, `none`
for `string::npos`. -/
def strFind (pat : List Char) : List Char → Option Nat
  | [] => if pat.isPrefixOf [] then some 0 else none
  | c :: rest =>
    if pat.isPrefixOf (c :: rest) then some 0 else (strFind pat rest).map (fun pos => pos + 1)

/-- The character class `[_A-Za-z0-9]` of the pattern on line 436. -/
def isClassNameChar (c : Char) : Bool :=
  c == '_' || ('A' ≤ c && c ≤ 'Z') || ('a' ≤ c && c ≤ 'z') || ('0' ≤ c && c ≤ '9')

/-- The call `regex_search(str_sub, match, pattern)` for the anchored pattern
`^[_A-Za-z0-9]+\*,?`: the length of `match[0]` when there is a match.  The star
is not in the character class, so the run of class characters is matched whole:
it must be non-empty and followed by a star, after which a comma is taken when
present. -/
def matchClassDecoration (str_sub : List Char) : Option Nat :=
  let run := str_sub.takeWhile isClassNameChar
  match run, str_sub.dropWhile isClassNameChar with
  | [], _ => none
  | _ :: _, '*' :: ',' :: _ => some (run.length + 2)
  | _ :: _, '*' :: _ => some (run.length + 1)
  | _ :: _, _ => none

/-- The call `str.replace(pos, len, "")`: erase `len` characters from `pos` on. -/
def strErase (str : List Char) (pos len : Nat) : List Char :=
  str.take pos ++ str.drop (pos + len)

/-- Function `cleanString` (lines 428-446), returning the new value of `str`. -/
def cleanString (str : List Char) : List Char :=
  let str :=
    match strFind classPrefix str with
    | some pos =>
      let str_sub := str.drop (pos + 8)
      match matchClassDecoration str_sub with
      | some matchLength => strErase str (pos + 1) (7 + matchLength)
      | none => str
    | none => str
  removeSpaces str

/-! ## Common.cc : `getGEPOffset` -/

/-- An index operand of an address computation: a `ConstantInt` with its value,
or anything else. -/
inductive Index where
  | constantInt (value : Int)
  | notConstantInt
  deriving DecidableEq, Repr

/-- An `llvm::Value` as `getGEPOffset` sees it.  A `GEPOperator` carries whether
it is a `ConstantExpr` (otherwise it is an instruction), its pointer operand
with pointer casts already stripped (`getPointerOperand()->stripPointerCasts()`),
its source element type and its index operands.  `notGEP` is any other value. -/
inductive Value (Ty : Type) where
  | gep (isConstantExpr : Bool) (baseValue : Value Ty) (sourceElementType : Ty)
      (indexOps : List Index)
  | notGEP

/-- Lines 657-661: every index that is not a `ConstantInt` becomes the constant 0. -/
def zeroNonConstant (indexOps : List Index) : List Int :=
  indexOps.map (fun idx => match idx with
    | .constantInt value => value
    | .notConstantInt => 0)

/-- Conversion of a mathematical integer to the `int64_t` holding it: two's
complement, 64 bits. -/
def wrapInt64 (x : Int) : Int := (x + 2 ^ 63) % 2 ^ 64 - 2 ^ 63

/-- Function `getGEPOffset` (lines 636-664).  `DL` is
`DataLayout::getIndexedOffsetInType`.  On a value that is not a `GEPOperator`
the `dyn_cast` yields null and there is no result.  The variable `offset` is an
`int64_t`: each `+=` wraps around in 64 bits, as the compiled code does. -/
def getGEPOffset {Ty : Type} (DL : Ty → List Int → Int) : Value Ty → Option Int
  | .notGEP => none
  | .gep _ baseValue ptrTy indexOps =>
    let offset : Int := 0
    let offset : Option Int :=
      match baseValue with
      | .gep true b t i =>
        (getGEPOffset DL (.gep true b t i)).map (fun nested => wrapInt64 (offset + nested))
      | _ => some offset
    offset.map (fun offset => wrapInt64 (offset + DL ptrTy (zeroNonConstant indexOps)))

/-- The index list the specification describes: "non-constant indices are treated
as offset-zero placeholders".  Every index keeps its position; a constant
contributes its value and any other index contributes 0. -/
def zeroFilled : List Index → List Int
  | [] => []
  | .constantInt value :: rest => value :: zeroFilled rest
  | .notConstantInt :: rest => 0 :: zeroFilled rest

/-- The address computations whose offsets `getGEPOffset` adds up: the given one,
then the chain of constant-expression computations reached through the bases. -/
def gepChain {Ty : Type} : Value Ty → List (Ty × List Index)
  | .notGEP => []
  | .gep _ baseValue ptrTy indexOps =>
    (ptrTy, indexOps) ::
      (match baseValue with
       | .gep true b t i => gepChain (.gep true b t i)
       | _ => [])

/-- A sample data layout for the examples, sensitive to the position of every
index: the index at position `k` advances by `10 ^ k` bytes. -/
def sampleDL (_ptrTy : Unit) : List Int → Int
  | [] => 0
  | i :: rest => i + 10 * sampleDL () rest

/-- Lines 647-648: the value is a `ConstantExpr` whose opcode is `GetElementPtr`. -/
def isConstantGEP {Ty : Type} : Value Ty → Bool
  | .gep true _ _ _ => true
  | _ => false

/-- The text `"%class."`, that is `classPrefix` without its opening parenthesis. -/
def classTag : List Char := ['%', 'c', 'l', 'a', 's', 's', '.']

/-! ### Sample types and modules for the examples -/

/-- A named struct `%struct.b = type { i32 }`; its only element has type ID 13. -/
def structB : IdentifiedStruct :=
  { name := "struct.b", isOpaque := false, elements := [13], printed := "%struct.b = type { i32 }" }

/-- A named struct `%struct.a = type { i32 }` of the same shape as `structB`. -/
def structA : IdentifiedStruct :=
  { name := "struct.a", isOpaque := false, elements := [13], printed := "%struct.a = type { i32 }" }

/-- The unnamed struct `{ i32 }`. -/
def anonInt : StructType :=
  { name := none, isOpaque := false, elements := [13], printed := "{ i32 }" }

/-- The unnamed struct `{ ptr }`; its only element has type ID 15. -/
def anonPtr : StructType :=
  { name := none, isOpaque := false, elements := [15], printed := "{ ptr }" }

/-- Two modules: the first defines `struct.b`, the second `struct.a`. -/
def modulesBA : List Module :=
  [{ identifiedStructTypes := [structB] }, { identifiedStructTypes := [structA] }]

/-- The same two modules in the other order. -/
def modulesAB : List Module :=
  [{ identifiedStructTypes := [structA] }, { identifiedStructTypes := [structB] }]

/-- The unnamed struct `{ bfloat, double }`: two members, with type IDs 1 and 3
(the numbering of LLVM 12 and later, in which an integer has type ID 13). -/
def anonPair : StructType :=
  { name := none, isOpaque := false, elements := [1, 3], printed := "{ bfloat, double }" }

/-- The number a string of decimal digits denotes, read from the left. -/
def decimalValue (digits : List Char) : Nat :=
  digits.foldl (fun acc c => acc * 10 + (c.toNat - 48)) 0

/-! # Properties -/

/-! ## The analysis loop -/

section Loop

variable {σ M : Type} (dmp : σ → M → σ × Bool)

theorem forModules_pass (iter total : Nat) (ms : List M) (st : SweepState σ M) :
    (forModules dmp iter total ms st).pass = sweepPass dmp ms st.pass := by
  induction ms generalizing st with
  | nil => rfl
  | cons m rest ih => simp [forModules, sweepPass, ih, forBody]

theorem forModules_out (iter total : Nat) (ms : List M) (st : SweepState σ M) :
    (forModules dmp iter total ms st).out.map (fun p => (p.module, p.changed)) =
      st.out.map (fun p => (p.module, p.changed)) ++ sweepCalls dmp ms st.pass := by
  induction ms generalizing st with
  | nil => simp [forModules, sweepCalls]
  | cons m rest ih => simp [forModules, sweepCalls, ih, forBody]

theorem forModules_changed (iter total : Nat) (ms : List M) (st : SweepState σ M)
    (h : st.changed < UNSIGNED_RANGE) :
    (forModules dmp iter total ms st).changed =
      (st.changed + (sweepCalls dmp ms st.pass).countP (fun c => c.2)) % UNSIGNED_RANGE := by
  induction ms generalizing st with
  | nil => simp [forModules, sweepCalls, Nat.mod_eq_of_lt h]
  | cons m rest ih =>
    have hpos : 0 < UNSIGNED_RANGE := by decide
    rw [forModules, ih]
    · cases hr : (dmp st.pass m).2 <;>
        simp [forBody, sweepCalls, hr, List.countP_cons, Nat.add_assoc, Nat.add_comm 1]
    · simp only [forBody]
      split
      · exact Nat.mod_lt _ hpos
      · exact h

theorem countP_sweepCalls_le (ms : List M) (s : σ) :
    (sweepCalls dmp ms s).countP (fun c => c.2) ≤ ms.length := by
  have : (sweepCalls dmp ms s).length = ms.length := by
    induction ms generalizing s with
    | nil => rfl
    | cons m rest ih => simp [sweepCalls, ih]
  exact this ▸ List.countP_le_length _

theorem whileBody_pass (modules : List M) (st : LoopState σ M) :
    (whileBody dmp modules st).pass = sweepPass dmp modules st.pass := by
  simp [whileBody, forModules_pass]

theorem whileBody_out (modules : List M) (st : LoopState σ M) :
    (whileBody dmp modules st).out.map (fun p => (p.module, p.changed)) =
      st.out.map (fun p => (p.module, p.changed)) ++ sweepCalls dmp modules st.pass := by
  simp [whileBody, forModules_out]

theorem whileBody_changed (modules : List M) (hlen : modules.length < UNSIGNED_RANGE)
    (st : LoopState σ M) :
    (whileBody dmp modules st).changed =
      (sweepCalls dmp modules st.pass).countP (fun c => c.2) := by
  have hpos : 0 < UNSIGNED_RANGE := by decide
  simp only [whileBody]
  rw [forModules_changed dmp _ _ _ _ hpos]
  simp only [Nat.zero_add]
  exact Nat.mod_eq_of_lt (lt_of_le_of_lt (countP_sweepCalls_le dmp modules st.pass) hlen)

theorem whileBody_changed_eq_zero (modules : List M) (hlen : modules.length < UNSIGNED_RANGE)
    (st : LoopState σ M) :
    (whileBody dmp modules st).changed = 0 ↔
      (sweepCalls dmp modules st.pass).any (fun c => c.2) = false := by
  rw [whileBody_changed dmp modules hlen]
  simp [List.countP_eq_zero]

theorem phaseStart_sweepPass (modules : List M) (s : σ) (i : Nat) :
    phaseStart dmp modules (sweepPass dmp modules s) i = phaseStart dmp modules s (i + 1) := by
  induction i with
  | zero => rfl
  | succ i ih => simp only [phaseStart] at ih ⊢; rw [ih]

theorem phaseChanged_sweepPass (modules : List M) (s : σ) (i : Nat) :
    phaseChanged dmp modules (sweepPass dmp modules s) i = phaseChanged dmp modules s (i + 1) := by
  simp only [phaseChanged, phaseStart_sweepPass]

theorem whileChanged_of_changed (modules : List M) (n : Nat) (st : LoopState σ M)
    (h : st.changed ≠ 0) :
    whileChanged dmp modules (n + 1) st = whileChanged dmp modules n (whileBody dmp modules st) := by
  rw [whileChanged]; simp [h]

theorem whileChanged_zero_of_changed (modules : List M) (st : LoopState σ M)
    (h : st.changed ≠ 0) : whileChanged dmp modules 0 st = none := by
  rw [whileChanged]; simp [h]

theorem whileChanged_of_not_changed (modules : List M) (n : Nat) (st : LoopState σ M)
    (h : st.changed = 0) : whileChanged dmp modules n st = some st := by
  rw [whileChanged.eq_def]; simp [h]

/-- From a state whose loop condition holds, if phase `j + 1` is the first quiet
one the loop stops after exactly `j + 1` sweeps. -/
theorem whileChanged_first_quiet (modules : List M) (hlen : modules.length < UNSIGNED_RANGE)
    (j : Nat) (st : LoopState σ M) (hst : st.changed ≠ 0)
    (hbefore : ∀ i, i < j → phaseChanged dmp modules st.pass i = true)
    (hquiet : phaseChanged dmp modules st.pass j = false) :
    whileChanged dmp modules (j + 1) st = some ((whileBody dmp modules)^[j + 1] st) ∧
      ∀ n, n ≤ j → whileChanged dmp modules n st = none := by
  induction j generalizing st with
  | zero =>
    have h0 : (whileBody dmp modules st).changed = 0 :=
      (whileBody_changed_eq_zero dmp modules hlen st).2 hquiet
    refine ⟨?_, ?_⟩
    · rw [whileChanged_of_changed dmp modules 0 st hst,
        whileChanged_of_not_changed dmp modules 0 _ h0]
      rfl
    · intro n hn
      obtain rfl : n = 0 := by omega
      exact whileChanged_zero_of_changed dmp modules st hst
  | succ j ih =>
    have h1 : (whileBody dmp modules st).changed ≠ 0 := by
      intro h0
      have := (whileBody_changed_eq_zero dmp modules hlen st).1 h0
      have h2 := hbefore 0 (Nat.succ_pos j)
      simp only [phaseChanged, phaseStart] at h2
      rw [h2] at this
      exact Bool.noConfusion this
    have hp := whileBody_pass dmp modules st
    obtain ⟨ih1, ih2⟩ := ih (whileBody dmp modules st) h1
      (by
        intro i hi
        rw [hp, phaseChanged_sweepPass]
        exact hbefore (i + 1) (by omega))
      (by rw [hp, phaseChanged_sweepPass]; exact hquiet)
    refine ⟨?_, ?_⟩
    · rw [whileChanged_of_changed dmp modules (j + 1) st hst, ih1]
      rfl
    · intro n hn
      cases n with
      | zero => exact whileChanged_zero_of_changed dmp modules st hst
      | succ n =>
        rw [whileChanged_of_changed dmp modules n st hst]
        exact ih2 n (by omega)

/-- If the loop stops within `n` sweeps, one of the first `n` phases was quiet. -/
theorem quiet_of_whileChanged_isSome (modules : List M) (hlen : modules.length < UNSIGNED_RANGE)
    (n : Nat) (st : LoopState σ M) (hst : st.changed ≠ 0)
    (h : (whileChanged dmp modules n st).isSome = true) :
    ∃ j, j < n ∧ phaseChanged dmp modules st.pass j = false := by
  induction n generalizing st with
  | zero => rw [whileChanged_zero_of_changed dmp modules st hst] at h; exact Bool.noConfusion h
  | succ n ih =>
    rw [whileChanged_of_changed dmp modules n st hst] at h
    by_cases h0 : (whileBody dmp modules st).changed = 0
    · exact ⟨0, Nat.succ_pos n, (whileBody_changed_eq_zero dmp modules hlen st).1 h0⟩
    · obtain ⟨j, hj, hq⟩ := ih (whileBody dmp modules st) h0 h
      rw [whileBody_pass, phaseChanged_sweepPass] at hq
      exact ⟨j + 1, by omega, hq⟩

theorem iterate_whileBody_pass (modules : List M) (k : Nat) (st : LoopState σ M) :
    ((whileBody dmp modules)^[k] st).pass = phaseStart dmp modules st.pass k := by
  induction k with
  | zero => rfl
  | succ k ih => rw [Function.iterate_succ_apply', whileBody_pass, ih]; rfl

theorem iterate_whileBody_out (modules : List M) (k : Nat) (st : LoopState σ M) :
    ((whileBody dmp modules)^[k] st).out.map (fun p => (p.module, p.changed)) =
      st.out.map (fun p => (p.module, p.changed)) ++
        (List.range k).flatMap (fun i => sweepCalls dmp modules (phaseStart dmp modules st.pass i)) := by
  induction k with
  | zero => simp
  | succ k ih =>
    rw [Function.iterate_succ_apply', whileBody_out, ih, iterate_whileBody_pass,
      List.range_succ, List.flatMap_append]
    simp

theorem sweepCalls_map_fst (ms : List M) (s : σ) :
    (sweepCalls dmp ms s).map (fun c => c.1) = ms := by
  induction ms generalizing s with
  | nil => rfl
  | cons m rest ih => simp [sweepCalls, ih]

end Loop

/-! ## The struct-name table -/

theorem strLt_iff (a b : List Char) : strLt a b = true ↔ a < b := by
  induction a generalizing b with
  | nil =>
    cases b with
    | nil => simp [strLt]
    | cons b bs => simpa [strLt] using List.nil_lt_cons b bs
  | cons a as ih =>
    cases b with
    | nil =>
      simp only [strLt, Bool.false_eq_true, false_iff]
      exact List.Lex.not_nil_right _ _
    | cons b bs =>
      simp only [strLt]
      rcases lt_trichotomy a b with h | rfl | h
      · simp only [h, if_true, true_iff]
        exact List.Lex.rel h
      · simp only [lt_irrefl, if_false]
        rw [ih]
        exact List.Lex.cons_iff.symm
      · simp only [not_lt_of_lt h, h, if_false, if_true, Bool.false_eq_true, false_iff]
        intro hlex
        cases hlex with
        | cons _ => exact lt_irrefl _ h
        | rel h2 => exact lt_asymm h h2

theorem stringRefLess_iff (x y : String) : stringRefLess x y = true ↔ x < y := by
  rw [String.lt_iff_toList_lt, stringRefLess, strLt_iff]

theorem stringRefLess_eq_false_iff (x y : String) : stringRefLess x y = false ↔ y ≤ x := by
  rw [← not_lt, ← stringRefLess_iff]; simp

theorem mem_setInsert (x y : String) (s : List String) :
    y ∈ setInsert x s ↔ y = x ∨ y ∈ s := by
  induction s with
  | nil => simp [setInsert]
  | cons z zs ih =>
    simp only [setInsert]
    split
    · simp
    · split
      · rename_i _ hxz
        subst hxz
        simp
      · simp only [List.mem_cons, ih]
        tauto

theorem setInsert_ne_nil (x : String) (s : List String) : setInsert x s ≠ [] := by
  cases s with
  | nil => simp [setInsert]
  | cons z zs =>
    simp only [setInsert]
    split
    · simp
    · split <;> simp

theorem pairwise_setInsert (x : String) (s : List String) (hs : s.Pairwise (· < ·)) :
    (setInsert x s).Pairwise (· < ·) := by
  induction s with
  | nil => simp [setInsert]
  | cons z zs ih =>
    rw [List.pairwise_cons] at hs
    simp only [setInsert]
    split
    · rename_i hlt
      have hxz : x < z := (stringRefLess_iff x z).1 hlt
      rw [List.pairwise_cons]
      refine ⟨?_, List.pairwise_cons.2 hs⟩
      intro a ha
      rcases List.mem_cons.1 ha with rfl | ha
      · exact hxz
      · exact lt_trans hxz (hs.1 a ha)
    · rename_i hnlt
      split
      · exact List.pairwise_cons.2 hs
      · rename_i hne
        have hzx : z < x := by
          have h1 : ¬ x < z := fun h => hnlt ((stringRefLess_iff x z).2 h)
          exact lt_of_le_of_ne (not_lt.1 h1) (Ne.symm hne)
        rw [List.pairwise_cons]
        refine ⟨?_, ih hs.2⟩
        intro a ha
        rcases (mem_setInsert x a zs).1 ha with rfl | ha
        · exact hzx
        · exact hs.1 a ha

theorem mapFind_mapInsert (tbl : NameMap) (k n key : String) :
    mapFind (mapInsert tbl k n) key =
      if k = key then some (setInsert n (namesAt tbl k)) else mapFind tbl key := by
  induction tbl with
  | nil =>
    by_cases h : k = key <;> simp [mapInsert, mapFind, namesAt, h]
  | cons e rest ih =>
    obtain ⟨k0, names⟩ := e
    by_cases h0 : k0 = k
    · subst h0
      by_cases h : k0 = key <;> simp [mapInsert, mapFind, namesAt, h]
    · by_cases h : k = key
      · subst h
        simp [mapInsert, mapFind, namesAt, h0] at ih ⊢
        exact ih
      · by_cases h1 : k0 = key
        · subst h1
          simp [mapInsert, mapFind, h0, h]
        · simp [mapInsert, mapFind, h0, h, h1] at ih ⊢
          exact ih

theorem namesAt_mapInsert (tbl : NameMap) (k n key : String) :
    namesAt (mapInsert tbl k n) key =
      if k = key then setInsert n (namesAt tbl k) else namesAt tbl key := by
  unfold namesAt
  rw [mapFind_mapInsert]
  split <;> rfl

/-- Every set stored in the table is non-empty and strictly increasing. -/
theorem tableOK_mapInsert (tbl : NameMap) (k n : String)
    (h : ∀ key names, mapFind tbl key = some names → names ≠ [] ∧ names.Pairwise (· < ·)) :
    ∀ key names, mapFind (mapInsert tbl k n) key = some names →
      names ≠ [] ∧ names.Pairwise (· < ·) := by
  intro key names hf
  rw [mapFind_mapInsert] at hf
  split at hf
  · obtain rfl := Option.some.inj hf
    refine ⟨setInsert_ne_nil _ _, pairwise_setInsert _ _ ?_⟩
    unfold namesAt
    cases hk : mapFind tbl k with
    | none => simp
    | some ns => exact (h k ns hk).2
  · exact h key names hf

theorem tableOK_loadStructs (ss : List IdentifiedStruct) (tbl : NameMap)
    (h : ∀ key names, mapFind tbl key = some names → names ≠ [] ∧ names.Pairwise (· < ·)) :
    ∀ key names, mapFind (loadStructs tbl ss) key = some names →
      names ≠ [] ∧ names.Pairwise (· < ·) := by
  induction ss generalizing tbl with
  | nil => exact h
  | cons S rest ih =>
    simp only [loadStructs]
    split
    · exact ih tbl h
    · exact ih _ (tableOK_mapInsert tbl _ _ h)

theorem tableOK_load (Modules : List Module) (tbl : NameMap)
    (h : ∀ key names, mapFind tbl key = some names → names ≠ [] ∧ names.Pairwise (· < ·)) :
    ∀ key names, mapFind (LoadElementsStructNameMap tbl Modules) key = some names →
      names ≠ [] ∧ names.Pairwise (· < ·) := by
  induction Modules generalizing tbl with
  | nil => exact h
  | cons M rest ih => exact ih _ (tableOK_loadStructs _ tbl h)

theorem mem_namesAt_loadStructs (ss : List IdentifiedStruct) (tbl : NameMap) (key x : String) :
    x ∈ namesAt (loadStructs tbl ss) key ↔
      x ∈ namesAt tbl key ∨
        ∃ S ∈ ss, S.isOpaque = false ∧ structTyStr S.elements = key ∧ S.name = x := by
  induction ss generalizing tbl with
  | nil => simp [loadStructs]
  | cons S rest ih =>
    simp only [loadStructs]
    split
    · rename_i hop
      rw [ih]
      simp only [List.mem_cons, exists_eq_or_imp, hop]
      simp
    · rename_i hop
      rw [ih, namesAt_mapInsert]
      simp only [List.mem_cons, exists_eq_or_imp]
      have hop' : S.isOpaque = false := by simpa using hop
      by_cases hk : structTyStr S.elements = key
      · subst hk
        simp only [if_true, mem_setInsert, hop', true_and]
        constructor
        · rintro ((rfl | h) | h)
          · exact Or.inr (Or.inl rfl)
          · exact Or.inl h
          · exact Or.inr (Or.inr h)
        · rintro (h | h | h)
          · exact Or.inl (Or.inr h)
          · exact Or.inl (Or.inl h.symm)
          · exact Or.inr h
      · simp [hk]

theorem mem_namesAt_load (Modules : List Module) (tbl : NameMap) (key x : String) :
    x ∈ namesAt (LoadElementsStructNameMap tbl Modules) key ↔
      x ∈ namesAt tbl key ∨
        ∃ M ∈ Modules, ∃ S ∈ M.identifiedStructTypes,
          S.isOpaque = false ∧ structTyStr S.elements = key ∧ S.name = x := by
  induction Modules generalizing tbl with
  | nil => simp [LoadElementsStructNameMap]
  | cons M rest ih =>
    simp only [LoadElementsStructNameMap]
    rw [ih, mem_namesAt_loadStructs]
    simp only [List.mem_cons, exists_eq_or_imp]
    exact or_assoc

theorem mem_registeredNames (Modules : List Module) (key x : String) :
    x ∈ registeredNames Modules key ↔
      ∃ M ∈ Modules, ∃ S ∈ M.identifiedStructTypes,
        S.isOpaque = false ∧ structTyStr S.elements = key ∧ S.name = x := by
  simp only [registeredNames, List.mem_filterMap, List.mem_flatMap]
  constructor
  · rintro ⟨S, ⟨M, hM, hS⟩, h⟩
    split at h
    · rename_i hc
      simp only [Bool.and_eq_true, Bool.not_eq_true', beq_iff_eq] at hc
      exact ⟨M, hM, S, hS, hc.1, hc.2, Option.some.inj h⟩
    · exact Option.noConfusion h
  · rintro ⟨M, hM, S, hS, h1, h2, h3⟩
    exact ⟨S, ⟨M, hM, hS⟩, by simp [h1, h2, h3]⟩

/-- After loading into the empty table, the set under a key holds exactly the
names registered for that key. -/
theorem mem_namesAt_load_nil (Modules : List Module) (key x : String) :
    x ∈ namesAt (LoadElementsStructNameMap [] Modules) key ↔ x ∈ registeredNames Modules key := by
  rw [mem_namesAt_load, mem_registeredNames]
  simp [namesAt, mapFind]

theorem pairwise_namesAt_load_nil (Modules : List Module) (key : String) :
    (namesAt (LoadElementsStructNameMap [] Modules) key).Pairwise (· < ·) := by
  unfold namesAt
  cases h : mapFind (LoadElementsStructNameMap [] Modules) key with
  | none => simp
  | some names =>
    exact (tableOK_load Modules [] (by intro key names h; simp [mapFind] at h) key names h).2

/-- The first element of a strictly increasing non-empty list is its least element. -/
theorem headD_least (names : List String) (h : names.Pairwise (· < ·)) (hne : names ≠ []) :
    names.headD "" ∈ names ∧ ∀ m ∈ names, names.headD "" ≤ m := by
  cases names with
  | nil => exact absurd rfl hne
  | cons n rest =>
    rw [List.pairwise_cons] at h
    refine ⟨by simp, ?_⟩
    intro m hm
    rcases List.mem_cons.1 hm with rfl | hm
    · exact le_refl _
    · exact le_of_lt (h.1 m hm)

theorem headD_eq_of_mem_iff (l1 l2 : List String) (h1 : l1.Pairwise (· < ·))
    (h2 : l2.Pairwise (· < ·)) (hmem : ∀ x, x ∈ l1 ↔ x ∈ l2) :
    l1.headD "" = l2.headD "" := by
  by_cases hne : l1 = []
  · subst hne
    have : l2 = [] := List.eq_nil_iff_forall_not_mem.2 fun x hx => by simpa using (hmem x).2 hx
    rw [this]
  · have hne2 : l2 ≠ [] := by
      intro h
      subst h
      exact hne (List.eq_nil_iff_forall_not_mem.2 fun x hx => by simpa using (hmem x).1 hx)
    obtain ⟨a1, a2⟩ := headD_least l1 h1 hne
    obtain ⟨b1, b2⟩ := headD_least l2 h2 hne2
    exact le_antisymm (a2 _ ((hmem _).2 b1)) (b2 _ ((hmem _).1 a1))

theorem typeHashStr_unnamed (tbl : NameMap) (STy : StructType) (h : STy.name = none) :
    typeHashStr tbl (.struct STy) = (namesAt tbl (structTyStr STy.elements)).headD "" := by
  simp only [typeHashStr, h, namesAt]
  cases mapFind tbl (structTyStr STy.elements) <;> rfl

/-! ## `cleanString` -/

theorem strFind_eq_none (pat s : List Char) (h : ¬ pat <:+: s) :
    strFind pat s = none := by
  induction s with
  | nil =>
    simp only [strFind]
    split
    · rename_i hp
      exact absurd (List.isPrefixOf_iff_prefix.1 hp).isInfix h
    · rfl
  | cons c rest ih =>
    simp only [strFind]
    split
    · rename_i hp
      exact absurd (List.isPrefixOf_iff_prefix.1 hp).isInfix h
    · rw [ih (fun hr => h (hr.trans (List.suffix_cons c rest).isInfix))]
      rfl

/-- A pattern whose first character does not occur again inside it cannot start
inside `R` and run over into a following copy of that first character. -/
theorem prefix_of_prefix_append (c : Char) (p R X : List Char) (hc : c ∉ p) (hR : R ≠ [])
    (h : (c :: p) <+: R ++ c :: X) : (c :: p) <+: R := by
  rcases List.prefix_or_prefix_of_prefix h (List.prefix_append R (c :: X)) with h1 | h1
  · exact h1
  · obtain ⟨t, ht⟩ := h1
    cases t with
    | nil => rw [List.append_nil] at ht; rw [ht]
    | cons d t =>
      exfalso
      rw [← ht, List.prefix_append_right_inj] at h
      obtain ⟨rfl, -⟩ := List.cons_prefix_cons.1 h
      cases R with
      | nil => exact hR rfl
      | cons r R =>
        simp only [List.cons_append, List.cons.injEq] at ht
        exact hc (ht.2 ▸ by simp)

theorem strFind_append (c : Char) (p R X : List Char) (hc : c ∉ p)
    (hR : ¬ (c :: p) <:+: R) :
    strFind (c :: p) (R ++ c :: X) =
      (strFind (c :: p) (c :: X)).map (fun pos => pos + R.length) := by
  induction R with
  | nil => cases h : strFind (c :: p) (c :: X) <;> simp [h]
  | cons r R ih =>
    have hnot : ¬ (c :: p) <+: (r :: R) ++ c :: X := fun h =>
      hR (prefix_of_prefix_append c p (r :: R) X hc (by simp) h).isInfix
    have hR' : ¬ (c :: p) <:+: R := fun h => hR (h.trans (List.suffix_cons r R).isInfix)
    have hb : (c :: p).isPrefixOf (r :: (R ++ c :: X)) = false := by
      rw [Bool.eq_false_iff]
      intro h
      exact hnot (List.isPrefixOf_iff_prefix.1 h)
    rw [List.cons_append, strFind, hb, ih hR']
    cases strFind (c :: p) (c :: X) <;> simp [Nat.add_assoc]

theorem takeWhile_append_stop (q : Char → Bool) (N : List Char) (x : Char) (rest : List Char)
    (hN : ∀ c ∈ N, q c = true) (hx : q x = false) :
    (N ++ x :: rest).takeWhile q = N ∧ (N ++ x :: rest).dropWhile q = x :: rest := by
  induction N with
  | nil => simp [List.takeWhile, List.dropWhile, hx]
  | cons n N ih =>
    have hn : q n = true := hN n (by simp)
    obtain ⟨h1, h2⟩ := ih (fun c hc => hN c (by simp [hc]))
    simp [List.takeWhile, List.dropWhile, hn, h1, h2]

theorem space_not_mem_removeSpaces (s : List Char) : ' ' ∉ removeSpaces s := by
  simp [removeSpaces, List.mem_filter]

/-! ## `getGEPOffset` -/

theorem wrapInt64_range (x : Int) : -2 ^ 63 ≤ wrapInt64 x ∧ wrapInt64 x < 2 ^ 63 := by
  unfold wrapInt64
  omega

theorem wrapInt64_of_range (x : Int) (h1 : -2 ^ 63 ≤ x) (h2 : x < 2 ^ 63) : wrapInt64 x = x := by
  unfold wrapInt64
  omega

theorem wrapInt64_add_wrap (a b : Int) : wrapInt64 (wrapInt64 a + b) = wrapInt64 (a + b) := by
  unfold wrapInt64
  omega

theorem wrapInt64_wrap (a : Int) : wrapInt64 (wrapInt64 a) = wrapInt64 a := by
  unfold wrapInt64
  omega

/-- The index list the code hands to the data layout is the one the
specification describes. -/
theorem zeroNonConstant_eq_zeroFilled (indexOps : List Index) :
    zeroNonConstant indexOps = zeroFilled indexOps := by
  induction indexOps with
  | nil => rfl
  | cons idx rest ih =>
    cases idx with
    | constantInt value =>
      simp only [zeroNonConstant, List.map_cons, zeroFilled] at ih ⊢
      rw [ih]
    | notConstantInt =>
      simp only [zeroNonConstant, List.map_cons, zeroFilled] at ih ⊢
      rw [ih]

theorem zeroFilled_length (indexOps : List Index) :
    (zeroFilled indexOps).length = indexOps.length := by
  induction indexOps with
  | nil => rfl
  | cons idx rest ih => cases idx <;> simp [zeroFilled, ih]

theorem zeroFilled_getElem (indexOps : List Index) (k : Nat) :
    (indexOps[k]? = some Index.notConstantInt → (zeroFilled indexOps)[k]? = some 0) ∧
    (∀ value, indexOps[k]? = some (Index.constantInt value) →
      (zeroFilled indexOps)[k]? = some value) := by
  induction indexOps generalizing k with
  | nil => simp
  | cons idx rest ih =>
    cases k with
    | zero => cases idx <;> simp [zeroFilled]
    | succ k => cases idx <;> simpa [zeroFilled] using ih k

theorem zeroFilled_constants (values : List Int) :
    zeroFilled (values.map Index.constantInt) = values := by
  induction values with
  | nil => rfl
  | cons v rest ih => simp [zeroFilled, ih]

theorem getGEPOffset_eq_chain {Ty : Type} (DL : Ty → List Int → Int) (c : Bool)
    (baseValue : Value Ty) (ptrTy : Ty) (indexOps : List Index) :
    getGEPOffset DL (.gep c baseValue ptrTy indexOps) =
      some (wrapInt64 (((gepChain (.gep c baseValue ptrTy indexOps)).map
        (fun lvl => DL lvl.1 (zeroFilled lvl.2))).sum)) := by
  induction baseValue generalizing c ptrTy indexOps with
  | notGEP => simp [getGEPOffset, gepChain, zeroNonConstant_eq_zeroFilled]
  | gep c1 b t i ih =>
    cases c1 with
    | false => simp [getGEPOffset, gepChain, zeroNonConstant_eq_zeroFilled]
    | true =>
      rw [getGEPOffset]
      simp only [ih true t i, Option.map_some', gepChain, List.map_cons, List.sum_cons,
        zero_add, wrapInt64_wrap, wrapInt64_add_wrap, zeroNonConstant_eq_zeroFilled]
      rw [add_comm]

/-! ## `structTyStr` -/

theorem digitChar_value (k : Nat) (hk : k < 10) : (Nat.digitChar k).toNat - 48 = k := by
  interval_cases k <;> rfl

theorem decimalValue_append (pre : List Char) (c : Char) :
    decimalValue (pre ++ [c]) = decimalValue pre * 10 + (c.toNat - 48) := by
  simp [decimalValue, List.foldl_append]

theorem toDigitsCore_decimal (fuel : Nat) :
    ∀ n, n < fuel → ∀ ds, ∃ pre, Nat.toDigitsCore 10 fuel n ds = pre ++ ds ∧
      decimalValue pre = n ∧ pre ≠ [] := by
  induction fuel with
  | zero => intro n hn; omega
  | succ fuel ih =>
    intro n hn ds
    rw [Nat.toDigitsCore]
    by_cases h0 : n / 10 = 0
    · refine ⟨[Nat.digitChar (n % 10)], by simp [h0], ?_, by simp⟩
      have hlt : n < 10 := by omega
      rw [Nat.mod_eq_of_lt hlt]
      simp [decimalValue, digitChar_value n hlt]
    · obtain ⟨pre, h1, h2, -⟩ := ih (n / 10) (by omega) (Nat.digitChar (n % 10) :: ds)
      refine ⟨pre ++ [Nat.digitChar (n % 10)], by simp [h0, h1], ?_, by simp⟩
      rw [decimalValue_append, h2, digitChar_value (n % 10) (Nat.mod_lt _ (by decide))]
      omega

/-- The decimal text of a number is not empty and denotes that number. -/
theorem toString_decimal (n : Nat) :
    decimalValue (toString n).toList = n ∧ (toString n).toList ≠ [] := by
  obtain ⟨pre, h1, h2, h3⟩ := toDigitsCore_decimal (n + 1) n (Nat.lt_succ_self n) []
  have : (toString n).toList = pre := by
    show (Nat.repr n).toList = pre
    simp only [Nat.repr, Nat.toDigits, h1, List.append_nil]
    rfl
  rw [this]
  exact ⟨h2, h3⟩

theorem structTyStr_toList_aux (elements : List Nat) (acc : String) :
    (elements.foldl (fun ty_str id => ty_str ++ toString id) acc).toList =
      acc.toList ++ elements.flatMap (fun id => (toString id).toList) := by
  induction elements generalizing acc with
  | nil => simp
  | cons id rest ih =>
    rw [List.foldl_cons, ih]
    simp [String.toList, String.data_append]

/-- The key is the concatenation of the decimal texts of the type IDs. -/
theorem structTyStr_toList (elements : List Nat) :
    (structTyStr elements).toList = elements.flatMap (fun id => (toString id).toList) := by
  rw [structTyStr, structTyStr_toList_aux]
  rfl

/-- Among sequences whose type IDs are all written with the same number `d` of
decimal digits the key does determine the sequence: the only way two different
sequences get one key is a regrouping of digits. -/
theorem structTyStr_injective_same_width (d : Nat) (xs ys : List Nat)
    (hx : ∀ x ∈ xs, (toString x).toList.length = d)
    (hy : ∀ y ∈ ys, (toString y).toList.length = d)
    (hkey : structTyStr xs = structTyStr ys) : xs = ys := by
  have h := congrArg String.toList hkey
  rw [structTyStr_toList, structTyStr_toList] at h
  clear hkey
  induction xs generalizing ys with
  | nil =>
    cases ys with
    | nil => rfl
    | cons y ys =>
      exfalso
      simp only [List.flatMap_nil, List.flatMap_cons] at h
      exact (toString_decimal y).2 (List.append_eq_nil.1 h.symm).1
  | cons x xs ih =>
    cases ys with
    | nil =>
      exfalso
      simp only [List.flatMap_nil, List.flatMap_cons] at h
      exact (toString_decimal x).2 (List.append_eq_nil.1 h).1
    | cons y ys =>
      simp only [List.flatMap_cons] at h
      have hlen : (toString x).toList.length = (toString y).toList.length := by
        rw [hx x (by simp), hy y (by simp)]
      obtain ⟨h1, h2⟩ := List.append_inj h hlen
      have hxy : x = y := by
        rw [← (toString_decimal x).1, ← (toString_decimal y).1, h1]
      rw [hxy, ih ys (fun a ha => hx a (by simp [ha])) (fun a ha => hy a (by simp [ha])) h2]

/-! ## Properties of the fixpoint driver -/

/-- C1 (as stated, refuted): with the default options the phase cap is 2, yet
for a `doModulePass` that always reports a change on a one-module list the
analysis loop does not stop within the cap; it never stops at all. -/
theorem C1_analysisLoop_ignores_cap :
    (mainConfig none none none).MAX_PHASE_CG = 2 ∧
    ¬ StopsWithinCap alwaysChanges [0] () (mainConfig none none none).MAX_PHASE_CG ∧
    (∀ n, analysisLoop alwaysChanges [0] n () = none) := by
  have hnever : ∀ n, analysisLoop alwaysChanges [0] n () = none := by
    intro n
    have key : ∀ (k : Nat) (st : LoopState Unit Nat), st.changed ≠ 0 →
        whileChanged alwaysChanges [0] k st = none := by
      intro k
      induction k with
      | zero => intro st h; exact whileChanged_zero_of_changed _ _ st h
      | succ k ih =>
        intro st h
        rw [whileChanged_of_changed _ _ k st h]
        apply ih
        rw [whileBody_changed alwaysChanges [0] (by decide)]
        simp [sweepCalls, alwaysChanges]
    exact key n _ (by simp [loopInit])
  refine ⟨rfl, ?_, hnever⟩
  rintro ⟨n, -, hn⟩
  rw [hnever n] at hn
  exact Bool.noConfusion hn

/-- C1 (amended): the analysis loop never reads the phase cap; on a module list
with fewer than 2^32 entries it stops within `cap` sweeps exactly when
`doModulePass` reports no change in some phase numbered at most `cap`. -/
theorem C1_analysisLoop_stops_within_cap_iff {σ M : Type} (doModulePass : σ → M → σ × Bool)
    (modules : List M) (s0 : σ) (cap : Int) (hlen : modules.length < UNSIGNED_RANGE) :
    StopsWithinCap doModulePass modules s0 cap ↔
      ∃ j : Nat, (j : Int) + 1 ≤ cap ∧ phaseChanged doModulePass modules s0 j = false := by
  constructor
  · rintro ⟨n, hn, hsome⟩
    obtain ⟨j, hj, hq⟩ := quiet_of_whileChanged_isSome doModulePass modules hlen n
      (loopInit s0) (by simp [loopInit]) hsome
    exact ⟨j, by have : (j : Int) + 1 ≤ n := by exact_mod_cast hj
                 omega, hq⟩
  · rintro ⟨j, hj, hq⟩
    classical
    have hex : ∃ i, phaseChanged doModulePass modules s0 i = false := ⟨j, hq⟩
    have hle : Nat.find hex ≤ j := Nat.find_min' hex hq
    obtain ⟨h1, -⟩ := whileChanged_first_quiet doModulePass modules hlen (Nat.find hex)
      (loopInit s0) (by simp [loopInit])
      (by
        intro i hi
        have := Nat.find_min hex hi
        simpa using this)
      (Nat.find_spec hex)
    refine ⟨Nat.find hex + 1, ?_, ?_⟩
    · have : ((Nat.find hex : Nat) : Int) ≤ j := by exact_mod_cast hle
      push_cast
      omega
    · simp only [analysisLoop, h1, Option.isSome_some]

/-- Witness of C1 (amended) on a two-module list with a pass that changes once. -/
theorem C1_analysisLoop_stops_within_cap_iff_witness :
    StopsWithinCap changesOnce [10, 20] 0 2 ↔
      ∃ j : Nat, (j : Int) + 1 ≤ 2 ∧ phaseChanged changesOnce [10, 20] 0 j = false :=
  C1_analysisLoop_stops_within_cap_iff changesOnce [10, 20] 0 2 (by decide)

/-- C2: on a module list with fewer than 2^32 entries, a sweep leaves `changed`
non-zero iff `doModulePass` returned true for some module; if phase `j + 1` is
the first phase without a change, the loop runs exactly `j + 1` sweeps, and the
calls of `doModulePass` it has made are, phase after phase, one call per module
in module-list order. -/
theorem C2_analysisLoop_runs_until_first_quiet_phase {σ M : Type}
    (doModulePass : σ → M → σ × Bool) (modules : List M) (s0 : σ) (j : Nat)
    (hlen : modules.length < UNSIGNED_RANGE)
    (hbefore : ∀ i, i < j → phaseChanged doModulePass modules s0 i = true)
    (hquiet : phaseChanged doModulePass modules s0 j = false) :
    (∀ st : LoopState σ M, (whileBody doModulePass modules st).changed ≠ 0 ↔
        ∃ c ∈ sweepCalls doModulePass modules st.pass, c.2 = true) ∧
    RunsExactly doModulePass modules s0 (j + 1) ∧
    ∃ fin, analysisLoop doModulePass modules (j + 1) s0 = some fin ∧
      fin.changed = 0 ∧
      fin.pass = phaseStart doModulePass modules s0 (j + 1) ∧
      fin.out.map (fun p => (p.module, p.changed)) =
        (List.range (j + 1)).flatMap
          (fun i => sweepCalls doModulePass modules (phaseStart doModulePass modules s0 i)) ∧
      fin.out.map (fun p => p.module) = (List.range (j + 1)).flatMap (fun _ => modules) := by
  obtain ⟨h1, h2⟩ := whileChanged_first_quiet doModulePass modules hlen j
    (loopInit s0) (by simp [loopInit]) hbefore hquiet
  have hout := iterate_whileBody_out doModulePass modules (j + 1) (loopInit s0)
  have hout' : ((whileBody doModulePass modules)^[j + 1] (loopInit s0)).out.map
      (fun p => (p.module, p.changed)) =
      (List.range (j + 1)).flatMap
        (fun i => sweepCalls doModulePass modules (phaseStart doModulePass modules s0 i)) := by
    rw [hout]; simp [loopInit]
  refine ⟨?_, ⟨?_, ?_⟩, _, h1, ?_, ?_, hout', ?_⟩
  · intro st
    rw [Ne, whileBody_changed_eq_zero doModulePass modules hlen]
    simp
  · simp only [analysisLoop, h1, Option.isSome_some]
  · intro n hn
    exact h2 n (by omega)
  · rw [Function.iterate_succ_apply', whileBody_changed_eq_zero doModulePass modules hlen,
      iterate_whileBody_pass]
    exact hquiet
  · rw [iterate_whileBody_pass]; rfl
  · have := congrArg (List.map (fun c : M × Bool => c.1)) hout'
    rw [List.map_map] at this
    rw [show (fun p : Progress M => p.module) =
      (fun c : M × Bool => c.1) ∘ (fun p : Progress M => (p.module, p.changed)) from rfl, this]
    rw [List.map_flatMap]
    simp only [sweepCalls_map_fst]

/-- Witness of C2: two modules, a pass whose first call alone reports a change;
phase 2 is the first quiet phase. -/
theorem C2_analysisLoop_runs_until_first_quiet_phase_witness :
    RunsExactly changesOnce [10, 20] 0 2 ∧
    ∃ fin, analysisLoop changesOnce [10, 20] 2 0 = some fin ∧
      fin.out.map (fun p => p.module) = [10, 20, 10, 20] := by
  obtain ⟨-, hrun, fin, hfin, -, -, -, hmods⟩ :=
    C2_analysisLoop_runs_until_first_quiet_phase changesOnce [10, 20] 0 1
      (by decide) (by decide) (by decide)
  exact ⟨hrun, fin, hfin, by simpa [List.range_succ] using hmods⟩

/-- Each call of the modelled pass counts itself. -/
theorem callGraph_sweepPass_calls {σ M : Type} (cfg : Config) (n : Nat)
    (analyze : σ → M → σ × Bool) (ms : List M) (s : CallGraphState σ) :
    (sweepPass (callGraphDoModulePass cfg n analyze) ms s).calls = s.calls + ms.length := by
  induction ms generalizing s with
  | nil => rfl
  | cons m rest ih =>
    rw [sweepPass, ih]
    simp only [callGraphDoModulePass, List.length_cons]
    omega

theorem callGraph_phaseStart_calls {σ M : Type} (cfg : Config) (n : Nat)
    (analyze : σ → M → σ × Bool) (modules : List M) (s0 : CallGraphState σ) (j : Nat) :
    (phaseStart (callGraphDoModulePass cfg n analyze) modules s0 j).calls =
      s0.calls + j * modules.length := by
  induction j with
  | zero => simp [phaseStart]
  | succ j ih =>
    rw [phaseStart, callGraph_sweepPass_calls, ih, Nat.succ_mul]
    omega

/-- Once the phase number has reached the cap the modelled pass reports nothing. -/
theorem callGraph_quiet_from_cap {σ M : Type} (cfg : Config) (n : Nat)
    (analyze : σ → M → σ × Bool) (ms : List M) (s : CallGraphState σ)
    (hcap : cfg.MAX_PHASE_CG ≤ ((s.calls / n + 1 : Nat) : Int)) :
    (sweepCalls (callGraphDoModulePass cfg n analyze) ms s).any (fun c => c.2) = false := by
  induction ms generalizing s with
  | nil => rfl
  | cons m rest ih =>
    have hnext : cfg.MAX_PHASE_CG ≤ (((s.calls + 1) / n + 1 : Nat) : Int) := by
      have hmono : s.calls / n ≤ (s.calls + 1) / n := Nat.div_le_div_right (Nat.le_succ _)
      have : ((s.calls / n + 1 : Nat) : Int) ≤ (((s.calls + 1) / n + 1 : Nat) : Int) := by
        exact_mod_cast Nat.succ_le_succ hmono
      exact le_trans hcap this
    have hhead : (callGraphDoModulePass cfg n analyze s m).2 = false := by
      simp only [callGraphDoModulePass, Bool.and_eq_false_iff, decide_eq_false_iff_not]
      right
      exact not_lt.2 hcap
    rw [sweepCalls, List.any_cons, hhead, Bool.false_or]
    exact ih _ hnext

/-- The modelled pass honours the cap: for a cap of at least one, started with
no call made, the analysis loop stops within `MAX_PHASE_CG` sweeps. -/
theorem callGraph_stops_within_cap {σ M : Type} (cfg : Config) (analyze : σ → M → σ × Bool)
    (modules : List M) (b0 : σ) (hlen : modules.length < UNSIGNED_RANGE)
    (hcap : 1 ≤ cfg.MAX_PHASE_CG) :
    StopsWithinCap (callGraphDoModulePass cfg modules.length analyze) modules
      { builder := b0, calls := 0 } cfg.MAX_PHASE_CG := by
  obtain ⟨k, hk⟩ : ∃ k : Nat, cfg.MAX_PHASE_CG = (k : Int) + 1 :=
    ⟨(cfg.MAX_PHASE_CG - 1).toNat, by omega⟩
  have hq : phaseChanged (callGraphDoModulePass cfg modules.length analyze) modules
      { builder := b0, calls := 0 } k = false := by
    unfold phaseChanged
    cases hm : modules with
    | nil => rfl
    | cons m rest =>
      rw [← hm]
      apply callGraph_quiet_from_cap
      rw [callGraph_phaseStart_calls]
      have hpos : 0 < modules.length := by rw [hm]; simp
      simp only [Nat.zero_add, Nat.mul_div_cancel _ hpos]
      rw [hk]
      push_cast
      exact le_refl _
  classical
  have hex : ∃ i, phaseChanged (callGraphDoModulePass cfg modules.length analyze) modules
      { builder := b0, calls := 0 } i = false := ⟨k, hq⟩
  have hle : Nat.find hex ≤ k := Nat.find_min' hex hq
  obtain ⟨h1, -⟩ := whileChanged_first_quiet _ modules hlen (Nat.find hex)
    (loopInit ({ builder := b0, calls := 0 } : CallGraphState σ)) (by simp [loopInit])
    (by
      intro i hi
      have := Nat.find_min hex hi
      simpa using this)
    (Nat.find_spec hex)
  refine ⟨Nat.find hex + 1, ?_, ?_⟩
  · have : ((Nat.find hex : Nat) : Int) ≤ k := by exact_mod_cast hle
    push_cast
    omega
  · simp only [analysisLoop, h1, Option.isSome_some]

/-- With the default options (cap 2) the same matching step gets a second
sweep and no third: the modelled pass reports changes below the cap. -/
theorem callGraph_default_two_phases :
    (analysisLoop (callGraphDoModulePass (mainConfig none none none) 2 alwaysFinds)
      [10, 20] 1 { builder := (), calls := 0 }).isSome = false ∧
    ((analysisLoop (callGraphDoModulePass (mainConfig none none none) 2 alwaysFinds)
      [10, 20] 2 { builder := (), calls := 0 }).map
        (fun st => st.out.map (fun p => (p.iter, p.module, p.changed)))) =
      some [(1, 10, true), (1, 20, true), (2, 10, false), (2, 20, false)] := by
  decide

/-! ## Properties of the type signature engine -/

/-- C4 (as stated, refuted): `struct.b` and `struct.a` are named, non-opaque and
of the same shape as the unnamed `{ i32 }`; after loading, the unnamed struct is
hashed from the name `struct.a` while `struct.b` is hashed from its own name, and
under the sample string hash their layered discriminators at field 0 differ. -/
theorem C4_shape_name_transitivity_fails :
    structB ∈ modulesBA.flatMap (fun M => M.identifiedStructTypes) ∧
    structB.isOpaque = false ∧ anonInt.name = none ∧ anonInt.elements = structB.elements ∧
    typeHashStr (LoadElementsStructNameMap [] modulesBA) (.struct structB.toStructType)
      = "struct.b" ∧
    typeHashStr (LoadElementsStructNameMap [] modulesBA) (.struct anonInt) = "struct.a" ∧
    typeIdxHash sampleStrHash (LoadElementsStructNameMap [] modulesBA)
        (.struct structB.toStructType) 0 ≠
      typeIdxHash sampleStrHash (LoadElementsStructNameMap [] modulesBA) (.struct anonInt) 0 := by
  decide

/-- C4 (amended): after `LoadElementsStructNameMap` has indexed the modules, for
every named non-opaque struct `A` among them whose name is the least (in
`StringRef` order) of the names registered for its shape key, every unnamed
struct `B` with the same element type IDs and every index `i`,
`typeIdxHash(A, i) = typeIdxHash(B, i)`. -/
theorem C4_shape_name_transitivity_least_name (h : String → Nat) (Modules : List Module)
    (M : Module) (A : IdentifiedStruct) (B : StructType) (i : Int)
    (hM : M ∈ Modules) (hA : A ∈ M.identifiedStructTypes) (hvisible : A.isOpaque = false)
    (hB : B.name = none) (hshape : B.elements = A.elements)
    (hleast : ∀ m ∈ registeredNames Modules (structTyStr A.elements),
      stringRefLess m A.name = false) :
    typeIdxHash h (LoadElementsStructNameMap [] Modules) (.struct A.toStructType) i =
      typeIdxHash h (LoadElementsStructNameMap [] Modules) (.struct B) i := by
  have hreg : A.name ∈ registeredNames Modules (structTyStr A.elements) :=
    (mem_registeredNames _ _ _).2 ⟨M, hM, A, hA, hvisible, rfl, rfl⟩
  have hmem := (mem_namesAt_load_nil Modules (structTyStr A.elements) A.name).2 hreg
  have hne : namesAt (LoadElementsStructNameMap [] Modules) (structTyStr A.elements) ≠ [] :=
    List.ne_nil_of_mem hmem
  obtain ⟨h1, h2⟩ := headD_least _ (pairwise_namesAt_load_nil Modules _) hne
  have hhead : (namesAt (LoadElementsStructNameMap [] Modules)
      (structTyStr A.elements)).headD "" = A.name := by
    apply le_antisymm (h2 _ hmem)
    exact (stringRefLess_eq_false_iff _ _).1
      (hleast _ ((mem_namesAt_load_nil Modules _ _).1 h1))
  have hstr : typeHashStr (LoadElementsStructNameMap [] Modules) (.struct B) = A.name := by
    rw [typeHashStr_unnamed _ _ hB, hshape, hhead]
  simp only [typeIdxHash, typeHash, hstr]
  rfl

/-- Witness of C4 (amended): `struct.a` is the least name of its shape. -/
theorem C4_shape_name_transitivity_least_name_witness :
    typeIdxHash sampleStrHash (LoadElementsStructNameMap [] modulesBA)
        (.struct structA.toStructType) 3 =
      typeIdxHash sampleStrHash (LoadElementsStructNameMap [] modulesBA) (.struct anonInt) 3 :=
  C4_shape_name_transitivity_least_name sampleStrHash modulesBA
    { identifiedStructTypes := [structA] } structA anonInt 3
    (by decide) (by decide) (by decide) (by decide) (by decide) (by decide)

/-- C5 (as stated, refuted): for the shape key of `{ i32 }` the name registered
first is `struct.b`, but `typeHash` of the unnamed struct hashes `struct.a`. -/
theorem C5_first_registered_name_not_used :
    registeredNames modulesBA (structTyStr anonInt.elements) = ["struct.b", "struct.a"] ∧
    typeHashStr (LoadElementsStructNameMap [] modulesBA) (.struct anonInt) = "struct.a" ∧
    typeHash sampleStrHash (LoadElementsStructNameMap [] modulesBA) (.struct anonInt) ≠
      str_hash sampleStrHash ((registeredNames modulesBA (structTyStr anonInt.elements)).headD "")
    := by
  decide

/-- C5 (amended): for every unnamed struct whose shape key has at least one
name registered by `LoadElementsStructNameMap`, `typeHash` returns the string
hash of the least registered name in `StringRef` order: a registered name that
no registered name is smaller than. -/
theorem C5_typeHash_uses_least_registered_name (h : String → Nat) (Modules : List Module)
    (B : StructType) (hB : B.name = none)
    (hreg : registeredNames Modules (structTyStr B.elements) ≠ []) :
    ∃ n ∈ registeredNames Modules (structTyStr B.elements),
      (∀ m ∈ registeredNames Modules (structTyStr B.elements), stringRefLess m n = false) ∧
      typeHash h (LoadElementsStructNameMap [] Modules) (.struct B) = str_hash h n := by
  obtain ⟨x, hx⟩ := List.exists_mem_of_ne_nil _ hreg
  have hne : namesAt (LoadElementsStructNameMap [] Modules) (structTyStr B.elements) ≠ [] :=
    List.ne_nil_of_mem ((mem_namesAt_load_nil Modules _ x).2 hx)
  obtain ⟨h1, h2⟩ := headD_least _ (pairwise_namesAt_load_nil Modules _) hne
  refine ⟨_, (mem_namesAt_load_nil Modules _ _).1 h1, ?_, ?_⟩
  · intro m hm
    exact (stringRefLess_eq_false_iff _ _).2 (h2 m ((mem_namesAt_load_nil Modules _ m).2 hm))
  · simp only [typeHash, typeHashStr_unnamed _ _ hB]

/-- Witness of C5 (amended) on the two sample modules. -/
theorem C5_typeHash_uses_least_registered_name_witness :
    ∃ n ∈ registeredNames modulesBA (structTyStr anonInt.elements),
      (∀ m ∈ registeredNames modulesBA (structTyStr anonInt.elements),
        stringRefLess m n = false) ∧
      typeHash sampleStrHash (LoadElementsStructNameMap [] modulesBA) (.struct anonInt) =
        str_hash sampleStrHash n :=
  C5_typeHash_uses_least_registered_name sampleStrHash modulesBA anonInt (by decide) (by decide)

/-- C6: for two module lists that are permutations of each other, the tables
built by `LoadElementsStructNameMap` from the empty table give the same
`typeHash` for every type. -/
theorem C6_typeHash_load_order_independent (h : String → Nat) (Modules1 Modules2 : List Module)
    (hperm : Modules1.Perm Modules2) (Ty : IRType) :
    typeHash h (LoadElementsStructNameMap [] Modules1) Ty =
      typeHash h (LoadElementsStructNameMap [] Modules2) Ty := by
  have hmem : ∀ key x, x ∈ namesAt (LoadElementsStructNameMap [] Modules1) key ↔
      x ∈ namesAt (LoadElementsStructNameMap [] Modules2) key := by
    intro key x
    rw [mem_namesAt_load_nil, mem_namesAt_load_nil, mem_registeredNames, mem_registeredNames]
    constructor
    · rintro ⟨M, hM, rest⟩
      exact ⟨M, hperm.mem_iff.1 hM, rest⟩
    · rintro ⟨M, hM, rest⟩
      exact ⟨M, hperm.mem_iff.2 hM, rest⟩
  cases Ty with
  | other printed => rfl
  | struct STy =>
    cases hn : STy.name with
    | some name => simp only [typeHash, typeHashStr, hn]
    | none =>
      simp only [typeHash, typeHashStr_unnamed _ _ hn]
      rw [headD_eq_of_mem_iff _ _ (pairwise_namesAt_load_nil Modules1 _)
        (pairwise_namesAt_load_nil Modules2 _) (hmem _)]

/-- Witness of C6: the two sample modules loaded in either order. -/
theorem C6_typeHash_load_order_independent_witness :
    typeHash sampleStrHash (LoadElementsStructNameMap [] modulesBA) (.struct anonInt) =
      typeHash sampleStrHash (LoadElementsStructNameMap [] modulesAB) (.struct anonInt) :=
  C6_typeHash_load_order_independent sampleStrHash modulesBA modulesAB
    (List.Perm.swap _ _ _) (.struct anonInt)

/-- C7 (as stated, refuted): with no module loaded, the unnamed structs `{ i32 }`
and `{ ptr }` have no registered name and different printed descriptions, yet
`typeHash` hashes the empty string for both, not their descriptions. -/
theorem C7_unnamed_unresolved_hashes_empty_string :
    mapFind (LoadElementsStructNameMap [] []) (structTyStr anonInt.elements) = none ∧
    mapFind (LoadElementsStructNameMap [] []) (structTyStr anonPtr.elements) = none ∧
    anonInt.printed ≠ anonPtr.printed ∧
    typeHashStr (LoadElementsStructNameMap [] []) (.struct anonInt) = "" ∧
    typeHashStr (LoadElementsStructNameMap [] []) (.struct anonPtr) = "" ∧
    typeHashStr (LoadElementsStructNameMap [] []) (.struct anonInt) ≠
      String.mk (removeSpaces anonInt.printed.toList) := by
  decide

/-- C7 (amended): for every unnamed struct whose shape key has no name
registered, `typeHash` returns the string hash of the empty string, whatever the
struct's printed description is; it never fails. -/
theorem C7_typeHash_unresolved_is_hash_of_empty (h : String → Nat) (Modules : List Module)
    (B : StructType) (hB : B.name = none)
    (hreg : registeredNames Modules (structTyStr B.elements) = []) :
    typeHashStr (LoadElementsStructNameMap [] Modules) (.struct B) = "" ∧
    typeHash h (LoadElementsStructNameMap [] Modules) (.struct B) = str_hash h "" := by
  have hnil : namesAt (LoadElementsStructNameMap [] Modules) (structTyStr B.elements) = [] := by
    apply List.eq_nil_iff_forall_not_mem.2
    intro x hx
    have := (mem_namesAt_load_nil Modules _ x).1 hx
    rw [hreg] at this
    simp at this
  have hstr : typeHashStr (LoadElementsStructNameMap [] Modules) (.struct B) = "" := by
    rw [typeHashStr_unnamed _ _ hB, hnil]; rfl
  exact ⟨hstr, by simp only [typeHash, hstr]⟩

/-- Witness of C7 (amended): `{ ptr }` has no registered name in the sample modules. -/
theorem C7_typeHash_unresolved_is_hash_of_empty_witness :
    typeHashStr (LoadElementsStructNameMap [] modulesBA) (.struct anonPtr) = "" ∧
    typeHash sampleStrHash (LoadElementsStructNameMap [] modulesBA) (.struct anonPtr) =
      str_hash sampleStrHash "" :=
  C7_typeHash_unresolved_is_hash_of_empty sampleStrHash modulesBA anonPtr (by decide) (by decide)

/-! ## Properties of `cleanString` and `getGEPOffset` -/

/-- C8: for every non-empty class name `N` made only of letters, digits and
underscores, and all strings `R` and `A` that contain no `(%class.` where `A`
does not start with `%class.`, `cleanString` maps `R ++ "(%class." ++ N ++ "*, " ++ A`
and `R ++ "(" ++ A` to the same string, and that string contains no space. -/
theorem C8_cleanString_strips_class_decoration (R N A : List Char) (hN : N ≠ [])
    (hchars : ∀ c ∈ N, isClassNameChar c = true)
    (hR : ¬ classPrefix <:+: R) (hA : ¬ classPrefix <:+: A) (hstart : ¬ classTag <+: A) :
    cleanString (R ++ classPrefix ++ N ++ ['*', ',', ' '] ++ A) = cleanString (R ++ ['('] ++ A) ∧
    cleanString (R ++ classPrefix ++ N ++ ['*', ',', ' '] ++ A) =
      removeSpaces R ++ ['('] ++ removeSpaces A ∧
    ' ' ∉ cleanString (R ++ classPrefix ++ N ++ ['*', ',', ' '] ++ A) := by
  have hc : '(' ∉ classTag := by decide
  have hcp : classPrefix = '(' :: classTag := rfl
  have hright : cleanString (R ++ ['('] ++ A) = removeSpaces R ++ ['('] ++ removeSpaces A := by
    have hfind : strFind classPrefix (R ++ ['('] ++ A) = none := by
      have h0 : strFind classPrefix ('(' :: A) = none := by
        have hb : classPrefix.isPrefixOf ('(' :: A) = false := by
          rw [Bool.eq_false_iff]
          intro h
          have := List.isPrefixOf_iff_prefix.1 h
          exact hstart (List.cons_prefix_cons.1 this).2
        rw [strFind, hb, strFind_eq_none _ _ hA]
        rfl
      have := strFind_append '(' classTag R A hc hR
      rw [← hcp, h0] at this
      simpa using this
    simp only [cleanString, hfind]
    simp [removeSpaces]
  have hleft : cleanString (R ++ classPrefix ++ N ++ ['*', ',', ' '] ++ A) =
      removeSpaces R ++ ['('] ++ removeSpaces A := by
    have hshape : R ++ classPrefix ++ N ++ ['*', ',', ' '] ++ A =
        R ++ '(' :: (classTag ++ (N ++ '*' :: ',' :: ' ' :: A)) := by
      simp [classPrefix, classTag]
    have hfind : strFind classPrefix (R ++ '(' :: (classTag ++ (N ++ '*' :: ',' :: ' ' :: A))) =
        some R.length := by
      have h0 : strFind classPrefix ('(' :: (classTag ++ (N ++ '*' :: ',' :: ' ' :: A))) =
          some 0 := by
        have hb : classPrefix.isPrefixOf ('(' :: (classTag ++ (N ++ '*' :: ',' :: ' ' :: A)))
            = true := by
          rw [List.isPrefixOf_iff_prefix]
          exact ⟨N ++ '*' :: ',' :: ' ' :: A, rfl⟩
        rw [strFind, hb]; rfl
      have := strFind_append '(' classTag R (classTag ++ (N ++ '*' :: ',' :: ' ' :: A)) hc hR
      rw [← hcp, h0] at this
      simpa using this
    have hsub : (R ++ '(' :: (classTag ++ (N ++ '*' :: ',' :: ' ' :: A))).drop (R.length + 8) =
        N ++ '*' :: ',' :: ' ' :: A := by
      rw [List.drop_append]; rfl
    obtain ⟨htake, hdrop⟩ := takeWhile_append_stop isClassNameChar N '*' (',' :: ' ' :: A) hchars
      (by decide)
    have hmatch : matchClassDecoration (N ++ '*' :: ',' :: ' ' :: A) = some (N.length + 2) := by
      unfold matchClassDecoration
      rw [htake, hdrop]
      cases N with
      | nil => exact absurd rfl hN
      | cons n N => rfl
    have herase : strErase (R ++ '(' :: (classTag ++ (N ++ '*' :: ',' :: ' ' :: A)))
        (R.length + 1) (7 + (N.length + 2)) = R ++ '(' :: ' ' :: A := by
      unfold strErase
      have e1 : (R ++ '(' :: (classTag ++ (N ++ '*' :: ',' :: ' ' :: A))).take (R.length + 1) =
          R ++ ['('] := by
        rw [List.take_append]; rfl
      have e2 : (R ++ '(' :: (classTag ++ (N ++ '*' :: ',' :: ' ' :: A))).drop
          (R.length + 1 + (7 + (N.length + 2))) = ' ' :: A := by
        rw [Nat.add_assoc, List.drop_append]
        have : 1 + (7 + (N.length + 2)) = N.length + 10 := by omega
        rw [this]
        show (N ++ '*' :: ',' :: ' ' :: A).drop (N.length + 2) = ' ' :: A
        rw [List.drop_append]; rfl
      rw [e1, e2]; simp
    rw [hshape]
    simp only [cleanString, hfind, hsub, hmatch, herase]
    simp [removeSpaces]
  refine ⟨hleft.trans hright.symm, hleft, ?_⟩
  rw [hleft]
  simp [removeSpaces, List.mem_filter]

/-- Witness of C8: `i32 (%class.Foo*, i8*)` against `i32 (i8*)`. -/
theorem C8_cleanString_strips_class_decoration_witness :
    cleanString (['i', '3', '2', ' '] ++ classPrefix ++ ['F', 'o', 'o'] ++ ['*', ',', ' '] ++
        ['i', '8', '*', ')']) =
      cleanString (['i', '3', '2', ' '] ++ ['('] ++ ['i', '8', '*', ')']) ∧
    cleanString (['i', '3', '2', ' '] ++ classPrefix ++ ['F', 'o', 'o'] ++ ['*', ',', ' '] ++
        ['i', '8', '*', ')']) =
      removeSpaces ['i', '3', '2', ' '] ++ ['('] ++ removeSpaces ['i', '8', '*', ')'] ∧
    ' ' ∉ cleanString (['i', '3', '2', ' '] ++ classPrefix ++ ['F', 'o', 'o'] ++
        ['*', ',', ' '] ++ ['i', '8', '*', ')']) :=
  C8_cleanString_strips_class_decoration ['i', '3', '2', ' '] ['F', 'o', 'o']
    ['i', '8', '*', ')'] (by decide) (by decide)
    (by
      intro h
      have := h.length_le
      simp [classPrefix] at this)
    (by
      intro h
      have := h.length_le
      simp [classPrefix] at this)
    (by
      intro h
      have := h.length_le
      simp [classTag] at this)

/-- C9: on every address computation `getGEPOffset` returns a result, an
`int64_t` (the recursion over nested constant expressions ends).  The list handed
to the data layout keeps every index in its position, with the value of each
constant index and 0 for each non-constant one.  The result is the data-layout
offset of that list plus, when the stripped base is a constant
address-computation expression, the `getGEPOffset` of that expression, and the
data-layout offset alone otherwise; sums are taken in `int64_t`, so they are
exact whenever they fit.  When all indices are constants and the base is not
such an expression the result is exactly the data-layout offset of the given
indices.  Altogether it is the 64-bit sum of these offsets along the chain of
nested constant expressions. -/
theorem C9_getGEPOffset_accumulates {Ty : Type} (DL : Ty → List Int → Int) (c : Bool)
    (baseValue : Value Ty) (ptrTy : Ty) (indexOps : List Index) :
    (∃ offset, getGEPOffset DL (.gep c baseValue ptrTy indexOps) = some offset ∧
      -2 ^ 63 ≤ offset ∧ offset < 2 ^ 63) ∧
    ((zeroFilled indexOps).length = indexOps.length ∧
      ∀ k : Nat,
        (indexOps[k]? = some Index.notConstantInt → (zeroFilled indexOps)[k]? = some 0) ∧
        (∀ value, indexOps[k]? = some (Index.constantInt value) →
          (zeroFilled indexOps)[k]? = some value)) ∧
    (isConstantGEP baseValue = true →
      ∃ nested, getGEPOffset DL baseValue = some nested ∧
        getGEPOffset DL (.gep c baseValue ptrTy indexOps) =
          some (wrapInt64 (nested + DL ptrTy (zeroFilled indexOps))) ∧
        (-2 ^ 63 ≤ nested + DL ptrTy (zeroFilled indexOps) →
          nested + DL ptrTy (zeroFilled indexOps) < 2 ^ 63 →
          getGEPOffset DL (.gep c baseValue ptrTy indexOps) =
            some (nested + DL ptrTy (zeroFilled indexOps)))) ∧
    (isConstantGEP baseValue = false →
      getGEPOffset DL (.gep c baseValue ptrTy indexOps) =
        some (wrapInt64 (DL ptrTy (zeroFilled indexOps)))) ∧
    (isConstantGEP baseValue = false →
      ∀ values : List Int, indexOps = values.map Index.constantInt →
        -2 ^ 63 ≤ DL ptrTy values → DL ptrTy values < 2 ^ 63 →
        getGEPOffset DL (.gep c baseValue ptrTy indexOps) = some (DL ptrTy values)) ∧
    getGEPOffset DL (.gep c baseValue ptrTy indexOps) =
      some (wrapInt64 (((gepChain (.gep c baseValue ptrTy indexOps)).map
        (fun lvl => DL lvl.1 (zeroFilled lvl.2))).sum)) := by
  have hflat : isConstantGEP baseValue = false →
      getGEPOffset DL (.gep c baseValue ptrTy indexOps) =
        some (wrapInt64 (DL ptrTy (zeroFilled indexOps))) := by
    intro hb
    cases baseValue with
    | notGEP => simp [getGEPOffset, zeroNonConstant_eq_zeroFilled]
    | gep c1 b t i =>
      cases c1 with
      | false => simp [getGEPOffset, zeroNonConstant_eq_zeroFilled]
      | true => simp [isConstantGEP] at hb
  refine ⟨⟨_, getGEPOffset_eq_chain DL c baseValue ptrTy indexOps, wrapInt64_range _⟩,
    ⟨zeroFilled_length indexOps, zeroFilled_getElem indexOps⟩, ?_, hflat, ?_,
    getGEPOffset_eq_chain DL c baseValue ptrTy indexOps⟩
  · intro hb
    cases baseValue with
    | notGEP => simp [isConstantGEP] at hb
    | gep c1 b t i =>
      cases c1 with
      | false => simp [isConstantGEP] at hb
      | true =>
        have hstep : getGEPOffset DL (.gep c (.gep true b t i) ptrTy indexOps) =
            some (wrapInt64 (wrapInt64 (((gepChain (Value.gep true b t i)).map
              (fun lvl => DL lvl.1 (zeroFilled lvl.2))).sum) +
                DL ptrTy (zeroFilled indexOps))) := by
          rw [getGEPOffset]
          simp only [getGEPOffset_eq_chain DL true b t i, Option.map_some', zero_add,
            wrapInt64_wrap, zeroNonConstant_eq_zeroFilled]
        refine ⟨_, getGEPOffset_eq_chain DL true b t i, hstep, ?_⟩
        intro h1 h2
        rw [hstep, wrapInt64_of_range _ h1 h2]
  · intro hb values hvals h1 h2
    rw [hflat hb, hvals, zeroFilled_constants, wrapInt64_of_range _ h1 h2]

/-- Witness of C9: an instruction whose base is a constant expression, itself
based on an instruction.  The constant expression contributes 1 + 2 * 10 = 21;
the outer indices 5, non-constant, 1 are read as 5, 0, 1 and contribute
5 + 0 * 10 + 1 * 100 = 105; the innermost instruction is not visited. -/
theorem C9_getGEPOffset_accumulates_witness :
    getGEPOffset sampleDL
      (Value.gep false
        (Value.gep true (Value.gep false Value.notGEP () [Index.constantInt 100]) ()
          [Index.constantInt 1, Index.constantInt 2])
        () [Index.constantInt 5, Index.notConstantInt, Index.constantInt 1]) = some 126 ∧
    getGEPOffset sampleDL
      (Value.gep true (Value.gep false Value.notGEP () [Index.constantInt 100]) ()
        [Index.constantInt 1, Index.constantInt 2]) = some 21 ∧
    sampleDL () [5, 0, 1] = 105 ∧
    getGEPOffset sampleDL
      (Value.gep false
        (Value.gep true (Value.gep false Value.notGEP () [Index.constantInt 100]) ()
          [Index.constantInt 1, Index.constantInt 2])
        () [Index.constantInt 5, Index.notConstantInt, Index.constantInt 1]) =
      some (wrapInt64 ((([((), [Index.constantInt 5, Index.notConstantInt, Index.constantInt 1]),
        ((), [Index.constantInt 1, Index.constantInt 2])] : List (Unit × List Index)).map
          (fun lvl => sampleDL lvl.1 (zeroFilled lvl.2))).sum)) :=
  ⟨by decide, by decide, by decide,
   (C9_getGEPOffset_accumulates sampleDL false
      (Value.gep true (Value.gep false Value.notGEP () [Index.constantInt 100]) ()
        [Index.constantInt 1, Index.constantInt 2])
      () [Index.constantInt 5, Index.notConstantInt, Index.constantInt 1]).2.2.2.2.2⟩

/-- The sum is taken in `int64_t`: a nested offset of 2^63 - 1 and one more byte
give -2^63. -/
theorem getGEPOffset_wraps_int64 :
    getGEPOffset sampleDL
      (Value.gep false
        (Value.gep true Value.notGEP () [Index.constantInt 9223372036854775807]) ()
        [Index.constantInt 1]) = some (-9223372036854775808) := by
  decide

/-! ## Defaults set by `main` -/

/-- C10 (as stated, refuted): without the `mlta` option the value copied into
`ENABLE_MLTA` is zero, so it is not non-zero. -/
theorem C10_mlta_default_is_zero :
    ¬ ((mainConfig none none none).ENABLE_MLTA ≠ 0) := by
  decide

/-- C10 (amended): when `mlta` is not given, `ENABLE_MLTA` is 0 (disabled)
whatever the other options are; with no option given `ENABLE_TYDM` is 1 and
`MAX_PHASE_CG` is 2. -/
theorem C10_defaults (typm phase : Option Int) :
    (mainConfig none typm phase).ENABLE_MLTA = 0 ∧
    (mainConfig none none none).ENABLE_TYDM = 1 ∧
    (mainConfig none none none).MAX_PHASE_CG = 2 :=
  ⟨rfl, rfl, rfl⟩

/-! ## The shape key -/

/-- C11 (the code at the failing input): the member type-ID sequences `[1, 3]`
and `[13]` differ, in length already, but `structTyStr` returns the key `13` for
both, because the decimal IDs are concatenated without a separator.  As a
result, once a module defining `struct.a` and `struct.b` of shape `[13]` is
loaded, the unnamed struct with members `[1, 3]` is hashed from the name
`struct.a`. -/
theorem C11_structTyStr_key_collision :
    anonPair.elements ≠ structA.elements ∧
    anonPair.elements.length ≠ structA.elements.length ∧
    structTyStr anonPair.elements = "13" ∧
    structTyStr structA.elements = "13" ∧
    structTyStr anonPair.elements = structTyStr structA.elements ∧
    typeHashStr (LoadElementsStructNameMap [] modulesBA) (.struct anonPair) = "struct.a" := by
  decide

end Typm
